import Mathlib

/-!
Shallow embedding of the `sequencer` crate (`src/lib.rs`).

Modelling conventions:
* `SeqKey` is modelled as `Nat`.  The arena `SlotMap<SeqKey, SeqNode<I>>`
  never has removals in this crate, so `insert_with_key` hands out the
  keys `0, 1, 2, ...` in creation order; the arena is a `List (SeqNode I)`
  whose index is the key.
* A Rust panic (explicit `panic!`, or indexing the slot map with an
  absent key) is modelled as `Option.none` of the operation's result
  type.  An operation that cannot panic is total.
* `new_seq` returns `Option SeqKey` in Rust as an ordinary value; that
  inner option is kept distinct from the outer panic option.
* `HashSet<SeqKey>` (the active set) is modelled as a duplicate-free
  `List Nat`: `insert` appends when absent, `remove` erases.  Iteration
  in `for_each_active` follows the list order, standing in for the
  unspecified hash-set iteration order.
* The visitor callbacks mutate the node's item; they are modelled as
  item transformers.  `drain_queue` additionally returns the list of
  keys passed to the visitor, in call order, so that theorems can speak
  about how often and in which order the visitor runs.
-/

/-- Status of a node, as in the Rust `NodeStatus` enum. -/
inductive NodeStatus where
  | Active
  | Inactive
  | Completed
deriving DecidableEq

/-- A node in a sequence graph (`SeqNode<I>`). -/
structure SeqNode (I : Type) where
  key : Nat
  parents : List Nat
  children : List Nat
  status : NodeStatus
  item : I
deriving DecidableEq

/-- The sequencer state (`Sequencer<I>`). -/
structure Sequencer (I : Type) where
  roots : List Nat
  nodes : List (SeqNode I)
  queued_nodes : List Nat
  active_nodes : List Nat
deriving DecidableEq

namespace Sequencer

variable {I : Type}

/-- Rust `Sequencer::default()`: all collections empty. -/
def empty : Sequencer I := ⟨[], [], [], []⟩

/-- Replace the node stored at key `k` (no-op when `k` is absent),
modelling assignment through `self.nodes[k]`. -/
def setNodeAt (s : Sequencer I) (k : Nat) (n : SeqNode I) : Sequencer I :=
  { s with nodes := s.nodes.set k n }

/-- Status of the node at key `k`, when present. -/
def statusOf (s : Sequencer I) (k : Nat) : Option NodeStatus :=
  (s.nodes[k]?).map SeqNode.status

/-- Parents list of the node at key `k`, when present. -/
def parentsOf (s : Sequencer I) (k : Nat) : Option (List Nat) :=
  (s.nodes[k]?).map SeqNode.parents

/-- Rust `create_node`: insert a fresh Inactive node with no edges; the
fresh key is the next arena index. -/
def create_node (s : Sequencer I) (item : I) : Nat × Sequencer I :=
  let key := s.nodes.length
  (key, { s with nodes := s.nodes ++ [⟨key, [], [], NodeStatus.Inactive, item⟩] })

/-- Push `ckey` onto the children list of the node at `pkey`
(`self.nodes[pkey].children.push(key)`); panics when `pkey` is absent. -/
def pushChild (s : Sequencer I) (pkey ckey : Nat) : Option (Sequencer I) := do
  let pnode ← s.nodes[pkey]?
  pure (setNodeAt s pkey { pnode with children := pnode.children ++ [ckey] })

/-- The `for pkey in parents` loop of `create_node_with_parents`. -/
def pushChildAll (s : Sequencer I) (pkeys : List Nat) (ckey : Nat) :
    Option (Sequencer I) :=
  match pkeys with
  | [] => some s
  | p :: ps => do
      let s₁ ← pushChild s p ckey
      pushChildAll s₁ ps ckey

/-- Rust `create_node_with_parents`: create a node, register it as a
child of every parent, then record its parents list. -/
def create_node_with_parents (s : Sequencer I) (parents : List Nat) (item : I) :
    Option (Nat × Sequencer I) := do
  let r := create_node s item
  let key := r.1
  let s₂ ← pushChildAll r.2 parents key
  let node ← s₂.nodes[key]?
  pure (key, setNodeAt s₂ key { node with parents := parents })

/-- Rust `new_node`: create a parentless node, record it as a root and
queue it immediately.  Never panics. -/
def new_node (s : Sequencer I) (item : I) : Nat × Sequencer I :=
  let r := create_node s item
  (r.1, { r.2 with
            roots := r.2.roots ++ [r.1],
            queued_nodes := r.2.queued_nodes ++ [r.1] })

/-- Rust `Vec::rotate_left(1)` on a list. -/
def rotateLeft1 (l : List α) : List α :=
  match l with
  | [] => []
  | x :: xs => xs ++ [x]

/-- The `for item in items` chaining loop shared by `new_seq` and
`new_child_seq`: each item becomes a node whose sole parent is the
previous one; returns the last key. -/
def chainFrom (s : Sequencer I) (prev : Nat) (items : List I) :
    Option (Nat × Sequencer I) :=
  match items with
  | [] => some (prev, s)
  | item :: rest => do
      let r ← create_node_with_parents s [prev] item
      chainFrom r.2 r.1 rest

/-- Rust `new_seq`: linear chain whose first item becomes a queued root.
Returns `none` (inner option) on an empty input; the outer option is the
panic channel and is in fact never `none` here. -/
def new_seq (s : Sequencer I) (items : List I) :
    Option (Option Nat × Sequencer I) :=
  if items.isEmpty then some (none, s)
  else
    let items₁ := rotateLeft1 items
    match items₁.getLast? with
    | none => none
    | some root_item => do
        let r := new_node s root_item
        let r₂ ← chainFrom r.2 r.1 items₁.dropLast
        pure (some r₂.1, r₂.2)

/-- Rust `new_child_seq`: linear chain whose first node is a child of the
given parents.  Panics (`none`) when `parents` or `items` is empty. -/
def new_child_seq (s : Sequencer I) (parents : List Nat) (items : List I) :
    Option (Nat × Sequencer I) :=
  if parents.isEmpty then none
  else if items.isEmpty then none
  else
    let items₁ := rotateLeft1 items
    match items₁.getLast? with
    | none => none
    | some first_item => do
        let r ← create_node_with_parents s parents first_item
        chainFrom r.2 r.1 items₁.dropLast

/-- Rust `inject_child_seq`: detach the parent's children, insert a child
chain under the parent, and hand the detached children to the chain's
last node. -/
def inject_child_seq (s : Sequencer I) (parent : Nat) (items : List I) :
    Option (Nat × Sequencer I) := do
  let pnode ← s.nodes[parent]?
  let parent_children := pnode.children
  let s₁ := setNodeAt s parent { pnode with children := [] }
  let r ← new_child_seq s₁ [parent] items
  let lnode ← r.2.nodes[r.1]?
  pure (r.1, setNodeAt r.2 r.1 { lnode with children := lnode.children ++ parent_children })

/-- The inner `for pkey in cnode.parents` loop of `queue_ready_children`:
`true` when every parent is Completed, short-circuiting on the first one
that is not (so later absent parents are not even looked up). -/
def parentsAllCompleted (s : Sequencer I) : List Nat → Option Bool
  | [] => some true
  | p :: ps => do
      let pnode ← s.nodes[p]?
      if pnode.status = NodeStatus.Completed then parentsAllCompleted s ps
      else pure false

/-- The child-scanning loop of `queue_ready_children`: the sublist of
`cs` whose nodes have all parents Completed, in order. -/
def readyChildren (s : Sequencer I) : List Nat → Option (List Nat)
  | [] => some []
  | c :: cs => do
      let cnode ← s.nodes[c]?
      let ok ← parentsAllCompleted s cnode.parents
      let rest ← readyChildren s cs
      pure (if ok then c :: rest else rest)

/-- Rust `queue_ready_children`: append every child of `key` whose
parents are all Completed to the ready queue. -/
def queue_ready_children (s : Sequencer I) (key : Nat) : Option (Sequencer I) := do
  let node ← s.nodes[key]?
  let ready ← readyChildren s node.children
  pure { s with queued_nodes := s.queued_nodes ++ ready }

/-- Rust `HashSet::insert`: append when not already present. -/
def hashSetInsert (l : List Nat) (k : Nat) : List Nat :=
  if k ∈ l then l else l ++ [k]

/-- Rust `set_node_status`: maintain the active set on the two tracked
transitions, then overwrite the status.  Panics on an absent key. -/
def set_node_status (s : Sequencer I) (key : Nat) (new_status : NodeStatus) :
    Option (Sequencer I) := do
  let node ← s.nodes[key]?
  let s₁ :=
    match node.status, new_status with
    | NodeStatus.Active, NodeStatus.Completed =>
        { s with active_nodes := s.active_nodes.erase key }
    | NodeStatus.Inactive, NodeStatus.Active =>
        { s with active_nodes := hashSetInsert s.active_nodes key }
    | _, _ => s
  pure (setNodeAt s₁ key { node with status := new_status })

/-- Rust `node_finished`: mark Completed, then queue ready children. -/
def node_finished (s : Sequencer I) (key : Nat) : Option (Sequencer I) := do
  let s₁ ← set_node_status s key NodeStatus.Completed
  queue_ready_children s₁ key

/-- The drain loop of `drain_queue` over the taken queue: activate each
key, apply the visitor to its item, and log the visited key. -/
def drainLoop (f : Nat → I → I) : Sequencer I → List Nat →
    Option (Sequencer I × List Nat)
  | s, [] => some (s, [])
  | s, key :: rest => do
      let s₁ ← set_node_status s key NodeStatus.Active
      let node ← s₁.nodes[key]?
      let s₂ := setNodeAt s₁ key { node with item := f node.key node.item }
      let r ← drainLoop f s₂ rest
      pure (r.1, node.key :: r.2)

/-- Rust `drain_queue`: take the queue, then run the drain loop on it.
Also returns the visitor call log. -/
def drain_queue (s : Sequencer I) (f : Nat → I → I) :
    Option (Sequencer I × List Nat) :=
  drainLoop f { s with queued_nodes := [] } s.queued_nodes

/-- The loop of `for_each_active` over the cloned active set: apply the
visitor; when it reports completion, run `node_finished`. -/
def forEachActiveLoop (f : Nat → I → I × Bool) : Sequencer I → List Nat →
    Option (Sequencer I)
  | s, [] => some s
  | s, key :: rest => do
      let node ← s.nodes[key]?
      let r := f node.key node.item
      let s₁ := setNodeAt s key { node with item := r.1 }
      let s₂ ← if r.2 then node_finished s₁ node.key else pure s₁
      forEachActiveLoop f s₂ rest

/-- Rust `for_each_active`: iterate the snapshot of the active set. -/
def for_each_active (s : Sequencer I) (f : Nat → I → I × Bool) :
    Option (Sequencer I) :=
  forEachActiveLoop f s s.active_nodes

/-- Rust `is_active`: something is queued or active. -/
def is_active (s : Sequencer I) : Bool :=
  !(s.active_nodes.isEmpty && s.queued_nodes.isEmpty)

/-- A key is ready in `s` when its node exists and every parent is
Completed: the readiness test of `queue_ready_children`, as a Boolean. -/
def readyNowB (s : Sequencer I) (c : Nat) : Bool :=
  ((s.nodes[c]?).map fun cnode =>
    (parentsAllCompleted s cnode.parents).getD false).getD false

/-- Key field stored at arena index `j`, when present. -/
def keyOf (s : Sequencer I) (j : Nat) : Option Nat :=
  (s.nodes[j]?).map SeqNode.key

end Sequencer

namespace Sequencer

variable {I : Type}

/-- A successful arena lookup bounds the index. -/
theorem getIndexLt {l : List (SeqNode I)} {i : Nat} {a : SeqNode I}
    (h : l[i]? = some a) : i < l.length :=
  (List.getElem?_eq_some.mp h).1

/-- Writing a node whose parents agree with the stored one leaves every
`parentsOf` unchanged. -/
theorem parentsOf_setNodeAt {s : Sequencer I} {k : Nat} {node m : SeqNode I}
    (hk : s.nodes[k]? = some node) (hm : m.parents = node.parents) :
    ∀ j, parentsOf (setNodeAt s k m) j = parentsOf s j := by
  intro j
  unfold parentsOf setNodeAt
  by_cases hj : k = j
  · subst hj
    rw [List.getElem?_set_self (getIndexLt hk), hk]
    simp [hm]
  · simp [List.getElem?_set_ne hj]

/-- Writing a node at `k` does not change the status stored at `j ≠ k`. -/
theorem statusOf_setNodeAt_ne {s : Sequencer I} {k : Nat} {m : SeqNode I}
    (j : Nat) (hj : k ≠ j) :
    statusOf (setNodeAt s k m) j = statusOf s j := by
  unfold statusOf setNodeAt
  simp [List.getElem?_set_ne hj]

/-- Writing a node at a valid `k` stores its status there. -/
theorem statusOf_setNodeAt_self {s : Sequencer I} {k : Nat} {node m : SeqNode I}
    (hk : s.nodes[k]? = some node) :
    statusOf (setNodeAt s k m) k = some m.status := by
  unfold statusOf setNodeAt
  rw [List.getElem?_set_self (getIndexLt hk)]
  rfl

/-- Writing a node whose key field agrees with the stored one leaves
every `keyOf` unchanged. -/
theorem keyOf_setNodeAt {s : Sequencer I} {k : Nat} {node m : SeqNode I}
    (hk : s.nodes[k]? = some node) (hm : m.key = node.key) :
    ∀ j, keyOf (setNodeAt s k m) j = keyOf s j := by
  intro j
  unfold keyOf setNodeAt
  by_cases hj : k = j
  · subst hj
    rw [List.getElem?_set_self (getIndexLt hk), hk]
    simp [hm]
  · simp [List.getElem?_set_ne hj]

/-- Parent scanning depends only on the node arena. -/
theorem parentsAllCompleted_congr {s s₂ : Sequencer I} (h : s.nodes = s₂.nodes) :
    ∀ l, parentsAllCompleted s l = parentsAllCompleted s₂ l := by
  intro l
  induction l with
  | nil => rfl
  | cons p ps ih => simp [parentsAllCompleted, h, ih]

/-- Readiness depends only on the node arena. -/
theorem readyNowB_congr {s s₂ : Sequencer I} (h : s.nodes = s₂.nodes) (c : Nat) :
    readyNowB s c = readyNowB s₂ c := by
  simp [readyNowB, h, parentsAllCompleted_congr h]

/-- Every key produced by the child-scanning loop is ready. -/
theorem readyChildren_sound {s : Sequencer I} :
    ∀ {cs t : List Nat}, readyChildren s cs = some t →
      t.all (readyNowB s) = true := by
  intro cs
  induction cs with
  | nil =>
      intro t h
      simp only [readyChildren, Option.some.injEq] at h
      subst h
      rfl
  | cons c cs ih =>
      intro t h
      simp only [readyChildren, Option.bind_eq_bind, Option.bind_eq_some,
        Option.pure_def, Option.some.injEq] at h
      obtain ⟨cnode, hc, ok, hok, rest, hrest, ht⟩ := h
      subst ht
      have hall := ih hrest
      cases hok2 : ok with
      | false => simpa [hok2] using hall
      | true =>
          subst hok2
          simp [readyNowB, hc, hok, hall]

/-- Every ready key offered to the child-scanning loop is produced. -/
theorem readyChildren_complete {s : Sequencer I} :
    ∀ {cs t : List Nat}, readyChildren s cs = some t →
      ∀ c ∈ cs, readyNowB s c = true → c ∈ t := by
  intro cs
  induction cs with
  | nil => intro t _ c hc; cases hc
  | cons c cs ih =>
      intro t h d hd hready
      simp only [readyChildren, Option.bind_eq_bind, Option.bind_eq_some,
        Option.pure_def, Option.some.injEq] at h
      obtain ⟨cnode, hc, ok, hok, rest, hrest, ht⟩ := h
      subst ht
      rcases List.mem_cons.mp hd with hdc | hdcs
      · subst hdc
        have hok2 : ok = true := by
          simpa [readyNowB, hc, hok] using hready
        subst hok2
        simp
      · have := ih hrest d hdcs hready
        cases ok <;> simp [this]

end Sequencer

namespace Sequencer

variable {I : Type}

/-- Shape of a successful `set_node_status` call: the arena gets the
status overwritten in place; queue and roots are untouched. -/
theorem set_node_status_some {s : Sequencer I} {key : Nat} {st : NodeStatus}
    {s₁ : Sequencer I} (h : set_node_status s key st = some s₁) :
    ∃ node, s.nodes[key]? = some node ∧
      s₁.nodes = s.nodes.set key { node with status := st } ∧
      s₁.queued_nodes = s.queued_nodes ∧ s₁.roots = s.roots := by
  simp only [set_node_status, Option.bind_eq_bind, Option.bind_eq_some,
    Option.pure_def, Option.some.injEq] at h
  obtain ⟨node, hk, hs⟩ := h
  subst hs
  refine ⟨node, hk, ?_, ?_, ?_⟩ <;>
    obtain ⟨nk, np, nc, nst, nit⟩ := node <;>
      cases nst <;> cases st <;> rfl

/-- Success and shape of `set_node_status` whenever the key is present. -/
theorem set_node_status_total {s : Sequencer I} {key : Nat} {node : SeqNode I}
    (hk : s.nodes[key]? = some node) (st : NodeStatus) :
    ∃ s₁, set_node_status s key st = some s₁ ∧
      s₁.nodes = s.nodes.set key { node with status := st } ∧
      s₁.queued_nodes = s.queued_nodes := by
  simp only [set_node_status, Option.bind_eq_bind, hk, Option.some_bind]
  refine ⟨_, rfl, ?_, ?_⟩ <;>
    obtain ⟨nk, np, nc, nst, nit⟩ := node <;>
      cases nst <;> cases st <;> rfl

/-- Completing a node that is currently Inactive leaves the active set
untouched (the match falls into the default arm). -/
theorem set_node_status_inactive_completed {s : Sequencer I} {key : Nat}
    {node : SeqNode I} (hk : s.nodes[key]? = some node)
    (hst : node.status = NodeStatus.Inactive) :
    set_node_status s key NodeStatus.Completed =
      some (setNodeAt s key { node with status := NodeStatus.Completed }) := by
  simp only [set_node_status, Option.bind_eq_bind, hk, Option.some_bind, hst,
    Option.pure_def]

/-- Activating a node that is currently Inactive inserts it into the
active set. -/
theorem set_node_status_inactive_active {s : Sequencer I} {key : Nat}
    {node : SeqNode I} (hk : s.nodes[key]? = some node)
    (hst : node.status = NodeStatus.Inactive) :
    set_node_status s key NodeStatus.Active =
      some (setNodeAt { s with active_nodes := hashSetInsert s.active_nodes key }
        key { node with status := NodeStatus.Active }) := by
  simp only [set_node_status, Option.bind_eq_bind, hk, Option.some_bind, hst,
    Option.pure_def]

/-- Shape of a successful `queue_ready_children` call. -/
theorem queue_ready_children_some {s : Sequencer I} {key : Nat} {s₁ : Sequencer I}
    (h : queue_ready_children s key = some s₁) :
    ∃ node t, s.nodes[key]? = some node ∧
      readyChildren s node.children = some t ∧
      s₁ = { s with queued_nodes := s.queued_nodes ++ t } := by
  simp only [queue_ready_children, Option.bind_eq_bind, Option.bind_eq_some,
    Option.pure_def, Option.some.injEq] at h
  obtain ⟨node, hk, t, ht, hs⟩ := h
  exact ⟨node, t, hk, ht, hs.symm⟩

/-- A successful `node_finished` call only appends to the queue, and
every appended key is ready in the resulting state. -/
theorem node_finished_spec {s s₁ : Sequencer I} {key : Nat}
    (h : node_finished s key = some s₁) :
    s₁.queued_nodes.take s.queued_nodes.length = s.queued_nodes ∧
    (s₁.queued_nodes.drop s.queued_nodes.length).all (readyNowB s₁) = true := by
  simp only [node_finished, Option.bind_eq_bind, Option.bind_eq_some] at h
  obtain ⟨sm, hset, hq⟩ := h
  obtain ⟨node, hk, hnodes, hqueued, _⟩ := set_node_status_some hset
  obtain ⟨node₂, t, hk₂, hready, hs₁⟩ := queue_ready_children_some hq
  subst hs₁
  have hq₁ : ({ sm with queued_nodes := sm.queued_nodes ++ t } : Sequencer I).queued_nodes
      = s.queued_nodes ++ t := by
    simp [hqueued]
  have hfun : readyNowB ({ sm with queued_nodes := sm.queued_nodes ++ t } : Sequencer I)
      = readyNowB sm :=
    funext fun c =>
      @readyNowB_congr I { sm with queued_nodes := sm.queued_nodes ++ t } sm rfl c
  constructor
  · rw [hq₁, List.take_left]
  · rw [hq₁, List.drop_left, hfun]
    exact readyChildren_sound hready

/-- Frame facts for `pushChild`: only one children list changes. -/
theorem pushChild_frame {s : Sequencer I} {p c : Nat} {s₁ : Sequencer I}
    (h : pushChild s p c = some s₁) :
    s₁.queued_nodes = s.queued_nodes ∧ s₁.nodes.length = s.nodes.length ∧
    (∀ j, parentsOf s₁ j = parentsOf s j) := by
  simp only [pushChild, Option.bind_eq_bind, Option.bind_eq_some,
    Option.pure_def, Option.some.injEq] at h
  obtain ⟨pnode, hp, hs⟩ := h
  subst hs
  exact ⟨rfl, List.length_set .., parentsOf_setNodeAt hp rfl⟩

/-- Frame facts for the parent-registration loop. -/
theorem pushChildAll_frame {c : Nat} :
    ∀ {ps : List Nat} {s s₁ : Sequencer I}, pushChildAll s ps c = some s₁ →
      s₁.queued_nodes = s.queued_nodes ∧ s₁.nodes.length = s.nodes.length ∧
      (∀ j, parentsOf s₁ j = parentsOf s j) := by
  intro ps
  induction ps with
  | nil =>
      intro s s₁ h
      simp only [pushChildAll, Option.some.injEq] at h
      subst h
      exact ⟨rfl, rfl, fun _ => rfl⟩
  | cons p ps ih =>
      intro s s₁ h
      simp only [pushChildAll, Option.bind_eq_bind, Option.bind_eq_some] at h
      obtain ⟨s₂, hpc, hrest⟩ := h
      obtain ⟨q1, l1, p1⟩ := pushChild_frame hpc
      obtain ⟨q2, l2, p2⟩ := ih hrest
      exact ⟨q2.trans q1, l2.trans l1, fun j => (p2 j).trans (p1 j)⟩

/-- Writing a node at `k` does not change `parentsOf` at `j ≠ k`. -/
theorem parentsOf_setNodeAt_ne {s : Sequencer I} {k : Nat} {m : SeqNode I}
    (j : Nat) (hj : k ≠ j) :
    parentsOf (setNodeAt s k m) j = parentsOf s j := by
  unfold parentsOf setNodeAt
  simp [List.getElem?_set_ne hj]

/-- Creating a node leaves the queue alone. -/
theorem create_node_queued (s : Sequencer I) (it : I) :
    (create_node s it).2.queued_nodes = s.queued_nodes := rfl

/-- The fresh key is the arena length. -/
theorem create_node_key (s : Sequencer I) (it : I) :
    (create_node s it).1 = s.nodes.length := rfl

/-- Creating a node grows the arena by one. -/
theorem create_node_length (s : Sequencer I) (it : I) :
    (create_node s it).2.nodes.length = s.nodes.length + 1 := by
  simp [create_node]

/-- Creating a node does not disturb earlier parents lists. -/
theorem create_node_parentsOf (s : Sequencer I) (it : I) {j : Nat}
    (hj : j < s.nodes.length) :
    parentsOf (create_node s it).2 j = parentsOf s j := by
  simp [create_node, parentsOf, List.getElem?_append, hj]

/-- Frame facts for `create_node_with_parents`: the fresh key is the old
arena length; the queue and all earlier parents lists are untouched. -/
theorem create_node_with_parents_frame {s : Sequencer I} {ps : List Nat} {it : I}
    {r : Nat × Sequencer I} (h : create_node_with_parents s ps it = some r) :
    r.1 = s.nodes.length ∧ r.2.nodes.length = s.nodes.length + 1 ∧
    r.2.queued_nodes = s.queued_nodes ∧
    (∀ j, j < s.nodes.length → parentsOf r.2 j = parentsOf s j) := by
  simp only [create_node_with_parents, Option.bind_eq_bind, Option.bind_eq_some,
    Option.pure_def, Option.some.injEq] at h
  obtain ⟨s₂, hpush, node, hn, hr⟩ := h
  subst hr
  obtain ⟨q1, l1, p1⟩ := pushChildAll_frame hpush
  refine ⟨rfl, ?_, ?_, ?_⟩
  · calc (setNodeAt s₂ (create_node s it).1 { node with parents := ps }).nodes.length
        = s₂.nodes.length := List.length_set ..
    _ = (create_node s it).2.nodes.length := l1
    _ = s.nodes.length + 1 := create_node_length s it
  · exact q1.trans (create_node_queued s it)
  · intro j hj
    have hne : (create_node s it).1 ≠ j := by
      rw [create_node_key]; omega
    rw [parentsOf_setNodeAt_ne j hne, p1 j, create_node_parentsOf s it hj]

/-- Frame facts for the chaining loop: the arena only grows, the result
key is the seed or a fresh key, and queue and earlier parents survive. -/
theorem chainFrom_frame :
    ∀ {items : List I} {s : Sequencer I} {prev : Nat} {r : Nat × Sequencer I},
      chainFrom s prev items = some r →
      s.nodes.length ≤ r.2.nodes.length ∧
      (r.1 = prev ∨ s.nodes.length ≤ r.1) ∧
      r.2.queued_nodes = s.queued_nodes ∧
      (∀ j, j < s.nodes.length → parentsOf r.2 j = parentsOf s j) := by
  intro items
  induction items with
  | nil =>
      intro s prev r h
      simp only [chainFrom, Option.some.injEq] at h
      subst h
      exact ⟨Nat.le_refl _, Or.inl rfl, rfl, fun _ _ => rfl⟩
  | cons it items ih =>
      intro s prev r h
      simp only [chainFrom, Option.bind_eq_bind, Option.bind_eq_some] at h
      obtain ⟨r₁, hc, hrest⟩ := h
      obtain ⟨hk1, hl1, hq1, hp1⟩ := create_node_with_parents_frame hc
      obtain ⟨hl2, hk2, hq2, hp2⟩ := ih hrest
      refine ⟨by omega, ?_, hq2.trans hq1, ?_⟩
      · right
        rcases hk2 with h2 | h2
        · rw [h2, hk1]
        · omega
      · intro j hj
        rw [hp2 j (by omega), hp1 j hj]

/-- Rust `new_child_seq` on an empty item list always panics. -/
theorem new_child_seq_nil (s : Sequencer I) (ps : List Nat) :
    new_child_seq s ps [] = none := by
  cases ps <;> rfl

/-- Unfolding of `new_child_seq` on a non-empty item list: the rotate
and pop recover the head and tail. -/
theorem new_child_seq_cons (s : Sequencer I) (ps : List Nat) (it : I)
    (items : List I) :
    new_child_seq s ps (it :: items) =
      (if ps.isEmpty then none
       else do
         let r ← create_node_with_parents s ps it
         chainFrom r.2 r.1 items) := by
  by_cases hps : ps.isEmpty
  · simp [new_child_seq, hps]
  · simp [new_child_seq, hps, rotateLeft1, List.getLast?_concat,
      List.dropLast_concat]

/-- Frame facts for `new_child_seq`: the returned key is fresh, and the
queue and all pre-existing parents lists are untouched. -/
theorem new_child_seq_frame {s : Sequencer I} {ps : List Nat} {items : List I}
    {r : Nat × Sequencer I} (h : new_child_seq s ps items = some r) :
    s.nodes.length ≤ r.1 ∧ r.2.queued_nodes = s.queued_nodes ∧
    (∀ j, j < s.nodes.length → parentsOf r.2 j = parentsOf s j) := by
  cases items with
  | nil => rw [new_child_seq_nil] at h; cases h
  | cons it items =>
      rw [new_child_seq_cons] at h
      by_cases hps : ps.isEmpty
      · rw [if_pos hps] at h; cases h
      · rw [if_neg hps] at h
        simp only [Option.bind_eq_bind, Option.bind_eq_some] at h
        obtain ⟨r₁, hc, hrest⟩ := h
        obtain ⟨hk1, hl1, hq1, hp1⟩ := create_node_with_parents_frame hc
        obtain ⟨hl2, hk2, hq2, hp2⟩ := chainFrom_frame hrest
        refine ⟨?_, hq2.trans hq1, ?_⟩
        · rcases hk2 with h2 | h2
          · rw [h2, hk1]
          · omega
        · intro j hj
          rw [hp2 j (by omega), hp1 j hj]

/-- Frame facts for `inject_child_seq`: the returned key is fresh and
every pre-existing node keeps its exact parents list. -/
theorem inject_child_seq_frame {s : Sequencer I} {p : Nat} {items : List I}
    {r : Nat × Sequencer I} (h : inject_child_seq s p items = some r) :
    s.nodes.length ≤ r.1 ∧
    (∀ j, j < s.nodes.length → parentsOf r.2 j = parentsOf s j) := by
  simp only [inject_child_seq, Option.bind_eq_bind, Option.bind_eq_some,
    Option.pure_def, Option.some.injEq] at h
  obtain ⟨pnode, hp, r₁, hseq, lnode, hl, hr⟩ := h
  subst hr
  obtain ⟨hge, hq, hpar⟩ := new_child_seq_frame hseq
  have hlen : (setNodeAt s p { pnode with children := [] }).nodes.length
      = s.nodes.length := List.length_set ..
  constructor
  · show s.nodes.length ≤ r₁.1
    omega
  · intro j hj
    show parentsOf
        (setNodeAt r₁.2 r₁.1
          { lnode with children := lnode.children ++ pnode.children }) j
      = parentsOf s j
    rw [@parentsOf_setNodeAt I r₁.2 r₁.1 lnode
        { lnode with children := lnode.children ++ pnode.children } hl rfl j,
      hpar j (by omega),
      @parentsOf_setNodeAt I s p pnode { pnode with children := [] } hp rfl j]

end Sequencer

namespace Sequencer

variable {I : Type}

/-- Key fields depend only on the node arena. -/
theorem keyOf_congr {s s₂ : Sequencer I} (h : s.nodes = s₂.nodes) (j : Nat) :
    keyOf s j = keyOf s₂ j := by
  unfold keyOf; rw [h]

/-- Statuses depend only on the node arena. -/
theorem statusOf_congr {s s₂ : Sequencer I} (h : s.nodes = s₂.nodes) (j : Nat) :
    statusOf s j = statusOf s₂ j := by
  unfold statusOf; rw [h]

/-- Overwriting a slot with a node of the same key field preserves all
key fields, stated through a nodes-level equation. -/
theorem keyOf_set {s : Sequencer I} {k : Nat} {node m : SeqNode I}
    {s₂ : Sequencer I} (hnode : s.nodes[k]? = some node) (hm : m.key = node.key)
    (hn : s₂.nodes = s.nodes.set k m) :
    ∀ j, keyOf s₂ j = keyOf s j := by
  intro j
  unfold keyOf
  rw [hn]
  by_cases hj : k = j
  · subst hj
    rw [List.getElem?_set_self (getIndexLt hnode), hnode]
    simp [hm]
  · rw [List.getElem?_set_ne hj]

/-- Status stored at an overwritten valid slot. -/
theorem statusOf_set_self {s : Sequencer I} {k : Nat} {m : SeqNode I}
    {s₂ : Sequencer I} (hlt : k < s.nodes.length)
    (hn : s₂.nodes = s.nodes.set k m) :
    statusOf s₂ k = some m.status := by
  unfold statusOf
  rw [hn, List.getElem?_set_self hlt]
  rfl

/-- Status stored away from an overwritten slot. -/
theorem statusOf_set_ne {s : Sequencer I} {k : Nat} {m : SeqNode I}
    {s₂ : Sequencer I} (hn : s₂.nodes = s.nodes.set k m) {j : Nat}
    (hj : k ≠ j) :
    statusOf s₂ j = statusOf s j := by
  unfold statusOf
  rw [hn, List.getElem?_set_ne hj]

/-- A stored key that names its own slot yields the node and the key
field equation. -/
theorem keyOf_self_elim {s : Sequencer I} {k : Nat} (h : keyOf s k = some k) :
    ∃ node, s.nodes[k]? = some node ∧ node.key = k := by
  unfold keyOf at h
  cases hnk : s.nodes[k]? with
  | none => rw [hnk] at h; cases h
  | some nd =>
      rw [hnk] at h
      exact ⟨nd, rfl, by simpa using h⟩

/-- One step of the drain loop over a present key, with the two arena
writes collapsed into a single `set`. -/
theorem drainLoop_cons_eq {s : Sequencer I} {k : Nat} {node : SeqNode I}
    (f : Nat → I → I) (rest : List Nat) (hnode : s.nodes[k]? = some node) :
    ∃ sm s₂ : Sequencer I,
      set_node_status s k NodeStatus.Active = some sm ∧
      s₂.nodes = s.nodes.set k
        { node with status := NodeStatus.Active, item := f node.key node.item } ∧
      s₂.queued_nodes = s.queued_nodes ∧
      s₂.active_nodes = sm.active_nodes ∧
      drainLoop f s (k :: rest) =
        (drainLoop f s₂ rest).bind fun r => some (r.1, node.key :: r.2) := by
  obtain ⟨sm, hsm, hsmnodes, hsmq⟩ := set_node_status_total hnode NodeStatus.Active
  have hsmk : sm.nodes[k]? = some { node with status := NodeStatus.Active } := by
    rw [hsmnodes]
    exact List.getElem?_set_self (getIndexLt hnode)
  refine ⟨sm,
    setNodeAt sm k
      { node with status := NodeStatus.Active, item := f node.key node.item },
    hsm, ?_, ?_, rfl, ?_⟩
  · show sm.nodes.set k _ = _
    rw [hsmnodes, List.set_set]
  · exact hsmq
  · simp only [drainLoop, Option.bind_eq_bind, hsm, Option.some_bind, hsmk]
    rfl

/-- Main induction for `drain_queue`: over a queue of keys that name
their own slots, the loop succeeds, visits exactly those keys in order,
leaves the queue field alone, preserves key fields, makes every visited
node Active, and never deactivates an Active node. -/
theorem drainLoop_total (f : Nat → I → I) :
    ∀ (l : List Nat) (s : Sequencer I),
      (∀ k ∈ l, keyOf s k = some k) →
      ∃ s₃, drainLoop f s l = some (s₃, l) ∧
        s₃.queued_nodes = s.queued_nodes ∧
        (∀ j, keyOf s₃ j = keyOf s j) ∧
        (∀ k ∈ l, statusOf s₃ k = some NodeStatus.Active) ∧
        (∀ j, statusOf s j = some NodeStatus.Active →
          statusOf s₃ j = some NodeStatus.Active) := by
  intro l
  induction l with
  | nil =>
      intro s _
      exact ⟨s, rfl, rfl, fun _ => rfl,
        fun k hk => absurd hk (List.not_mem_nil _), fun _ h => h⟩
  | cons k rest ih =>
      intro s hkeys
      obtain ⟨node, hnode, hnkey⟩ := keyOf_self_elim (hkeys k (List.mem_cons_self ..))
      obtain ⟨sm, s₂, hsm, hs₂nodes, hs₂q, hs₂act, heq⟩ := drainLoop_cons_eq f rest hnode
      have hklt : k < s.nodes.length := getIndexLt hnode
      have hkey₂ : ∀ j, keyOf s₂ j = keyOf s j :=
        @keyOf_set I s k node
          { node with status := NodeStatus.Active, item := f node.key node.item }
          s₂ hnode rfl hs₂nodes
      have hstat₂self : statusOf s₂ k = some NodeStatus.Active :=
        statusOf_set_self hklt hs₂nodes
      have hstat₂ne : ∀ j, k ≠ j → statusOf s₂ j = statusOf s j :=
        fun j hj => statusOf_set_ne hs₂nodes hj
      obtain ⟨s₃, hd, hq3, hkey3, hact3, hpres3⟩ :=
        ih s₂ (fun k' hk' => by
          rw [hkey₂ k']; exact hkeys k' (List.mem_cons_of_mem _ hk'))
      refine ⟨s₃, ?_, hq3.trans hs₂q, fun j => (hkey3 j).trans (hkey₂ j), ?_, ?_⟩
      · rw [heq, hd]
        simp [hnkey]
      · intro k' hk'
        rcases List.mem_cons.mp hk' with h' | h'
        · subst h'
          exact hpres3 _ hstat₂self
        · exact hact3 k' h'
      · intro j hj
        refine hpres3 j ?_
        by_cases hjk : k = j
        · subst hjk
          exact hstat₂self
        · rw [hstat₂ne j hjk]
          exact hj

/-- Active-set effect of the drain loop over a duplicate-free queue of
valid, Inactive, not-yet-active keys: they are appended in order. -/
theorem drainLoop_active (f : Nat → I → I) :
    ∀ (l : List Nat) (s : Sequencer I),
      (∀ k ∈ l, keyOf s k = some k) →
      (∀ k ∈ l, statusOf s k = some NodeStatus.Inactive) →
      l.Nodup →
      (∀ k ∈ l, k ∉ s.active_nodes) →
      (drainLoop f s l).map (fun r => r.1.active_nodes) =
        some (s.active_nodes ++ l) := by
  intro l
  induction l with
  | nil => intro s _ _ _ _; simp [drainLoop]
  | cons k rest ih =>
      intro s hkeys hstat hnd hdisj
      obtain ⟨node, hnode, hnkey⟩ := keyOf_self_elim (hkeys k (List.mem_cons_self ..))
      have hstatk : node.status = NodeStatus.Inactive := by
        have h := hstat k (List.mem_cons_self ..)
        unfold statusOf at h
        rw [hnode] at h
        simpa using h
      obtain ⟨sm, s₂, hsm, hs₂nodes, hs₂q, hs₂act, heq⟩ := drainLoop_cons_eq f rest hnode
      have hsmval := set_node_status_inactive_active hnode hstatk
      have hsmeq : sm =
          setNodeAt { s with active_nodes := hashSetInsert s.active_nodes k }
            k { node with status := NodeStatus.Active } :=
        Option.some.inj (hsm.symm.trans hsmval)
      have hins : hashSetInsert s.active_nodes k = s.active_nodes ++ [k] := by
        unfold hashSetInsert
        rw [if_neg (hdisj k (List.mem_cons_self ..))]
      have hs₂active : s₂.active_nodes = s.active_nodes ++ [k] := by
        rw [hs₂act, hsmeq]
        exact hins
      obtain ⟨hknr, hndrest⟩ := List.nodup_cons.mp hnd
      have hkey₂ : ∀ j, keyOf s₂ j = keyOf s j :=
        @keyOf_set I s k node
          { node with status := NodeStatus.Active, item := f node.key node.item }
          s₂ hnode rfl hs₂nodes
      have hstat₂ne : ∀ j, k ≠ j → statusOf s₂ j = statusOf s j :=
        fun j hj => statusOf_set_ne hs₂nodes hj
      have hih := ih s₂
        (fun k' hk' => by
          rw [hkey₂ k']; exact hkeys k' (List.mem_cons_of_mem _ hk'))
        (fun k' hk' => by
          have hne : k ≠ k' := by rintro rfl; exact hknr hk'
          rw [hstat₂ne k' hne]
          exact hstat k' (List.mem_cons_of_mem _ hk'))
        hndrest
        (fun k' hk' => by
          rw [hs₂active]
          simp only [List.mem_append, List.mem_singleton]
          rintro (h' | h')
          · exact hdisj k' (List.mem_cons_of_mem _ hk') h'
          · exact hknr (h' ▸ hk'))
      rw [heq]
      cases hdd : drainLoop f s₂ rest with
      | none => rw [hdd] at hih; cases hih
      | some rr =>
          rw [hdd] at hih
          simp only [Option.map_some', Option.some.injEq] at hih
          simp only [Option.some_bind, Option.map_some', Option.some.injEq]
          rw [hih, hs₂active]
          simp

end Sequencer

namespace Sequencer

variable {I : Type}

/-- Claim C1 (code bug shown): `node_finished` is not idempotent.  After
`new_seq [0,1]` the root (key 0) is completed once, queueing the child
(key 1); a second `node_finished` on the already-Completed root runs
`queue_ready_children` again and re-enqueues the child, so the queue
ends as `[0, 1, 1]` instead of staying `[0, 1]`. -/
theorem node_finished_second_call_requeues_children :
    (do
      let r ← new_seq (empty : Sequencer Nat) [0, 1]
      let s₂ ← node_finished r.2 0
      let s₃ ← node_finished s₂ 0
      pure (statusOf s₂ 0, s₂.queued_nodes, s₃.queued_nodes))
    = some (some NodeStatus.Completed, [0, 1], [0, 1, 1]) := by decide

/-- Claim C2 (code bug shown): status is not monotonic.  Completing a
node while it still sits in the ready queue and then draining the queue
moves that node from Completed back to Active: `drain_queue` writes
Active unconditionally and `queue_ready_children` never checks the
child's own status. -/
theorem completed_node_regresses_to_active :
    (do
      let r ← new_seq (empty : Sequencer Nat) [0, 1]
      let s₂ ← node_finished r.2 0
      let s₃ ← node_finished s₂ 1
      let r₄ ← drain_queue s₃ (fun _ i => i)
      pure (statusOf s₃ 1, statusOf r₄.1 1))
    = some (some NodeStatus.Completed, some NodeStatus.Active) := by decide

/-- Claim C3, counterexample: readiness is not evaluated at construction
time.  Node 0 is Completed before `new_child_seq [0] [7]` is called, yet
the call leaves the ready queue empty — the new node (whose parents list
is exactly `[0]`) is not enqueued. -/
theorem new_child_seq_lazy_counterexample :
    (do
      let r₂ ← drain_queue (new_node (empty : Sequencer Nat) 0).2 (fun _ i => i)
      let s₃ ← node_finished r₂.1 0
      let r₄ ← new_child_seq s₃ [0] [7]
      pure (statusOf s₃ 0, parentsOf r₄.2 r₄.1, r₄.2.queued_nodes))
    = some (some NodeStatus.Completed, some [0], []) := by decide

/-- Claim C3, amended: `new_child_seq` never touches the ready queue at
all — whatever the parents' statuses, every successful call returns a
state whose queue equals the input queue; the first node can only be
enqueued by a later completion event on a parent. -/
theorem new_child_seq_never_enqueues (s : Sequencer I) (parents : List Nat)
    (items : List I) (r : Nat × Sequencer I)
    (h : new_child_seq s parents items = some r) :
    r.2.queued_nodes = s.queued_nodes :=
  (new_child_seq_frame h).2.1

/-- Claim C3, witness for the amended theorem at a concrete input. -/
theorem new_child_seq_never_enqueues_witness :
    (⟨[0], [⟨0, [], [1], NodeStatus.Inactive, 0⟩, ⟨1, [0], [], NodeStatus.Inactive, 5⟩],
        [0], []⟩ : Sequencer Nat).queued_nodes
      = (⟨[0], [⟨0, [], [], NodeStatus.Inactive, 0⟩], [0], []⟩ : Sequencer Nat).queued_nodes :=
  new_child_seq_never_enqueues
    ⟨[0], [⟨0, [], [], NodeStatus.Inactive, 0⟩], [0], []⟩ [0] [5]
    (1, ⟨[0], [⟨0, [], [1], NodeStatus.Inactive, 0⟩, ⟨1, [0], [], NodeStatus.Inactive, 5⟩],
      [0], []⟩)
    (by decide)

/-- Claim C4, counterexample: a handle absent from the arena is fatal.
`node_finished` and `inject_child_seq` on an empty engine panic (the
slot-map index panics), modelled as `none` — the call does not return
with unchanged state. -/
theorem unknown_handle_counterexample :
    node_finished (empty : Sequencer Nat) 0 = none ∧
    inject_child_seq (empty : Sequencer Nat) 0 [5] = none := by decide

/-- Claim C4, amended: every operation that indexes the arena with a key
absent from it panics (`none`), rather than recovering with unchanged
state. -/
theorem unknown_handle_panics (s : Sequencer I) (k : Nat)
    (h : s.nodes[k]? = none) (st : NodeStatus) (items : List I) :
    set_node_status s k st = none ∧ node_finished s k = none ∧
    inject_child_seq s k items = none := by
  have h1 : set_node_status s k st = none := by
    simp [set_node_status, Option.bind_eq_bind, h]
  have h2 : set_node_status s k NodeStatus.Completed = none := by
    simp [set_node_status, Option.bind_eq_bind, h]
  refine ⟨h1, ?_, ?_⟩
  · simp [node_finished, Option.bind_eq_bind, h2]
  · simp [inject_child_seq, Option.bind_eq_bind, h]

/-- Claim C4, witness for the amended theorem at a concrete input. -/
theorem unknown_handle_panics_witness :
    set_node_status (empty : Sequencer Nat) 3 NodeStatus.Active = none ∧
    node_finished (empty : Sequencer Nat) 3 = none ∧
    inject_child_seq (empty : Sequencer Nat) 3 [7] = none :=
  unknown_handle_panics empty 3 rfl NodeStatus.Active [7]

/-- Claim C5, counterexample: an empty item sequence is not reported as
a failure result by `new_child_seq` or `inject_child_seq` — both panic
(`none`), and `new_child_seq` also panics on an empty parent set. -/
theorem empty_input_panics_counterexample :
    new_child_seq (new_node (empty : Sequencer Nat) 0).2 [0] ([] : List Nat) = none ∧
    new_child_seq (new_node (empty : Sequencer Nat) 0).2 ([] : List Nat) [5] = none ∧
    inject_child_seq (new_node (empty : Sequencer Nat) 0).2 0 ([] : List Nat) = none := by
  decide

/-- Claim C5, amended: `new_seq` alone returns the distinguishable
failure `none` on an empty input, creating no nodes and leaving the
state unchanged; `new_child_seq` (empty items or empty parents) and
`inject_child_seq` (empty items) panic instead of returning a failure
result. -/
theorem empty_input_behavior (s : Sequencer I) (parents : List Nat)
    (items : List I) (p : Nat) :
    new_seq s ([] : List I) = some (none, s) ∧
    new_child_seq s parents ([] : List I) = none ∧
    new_child_seq s ([] : List Nat) items = none ∧
    inject_child_seq s p ([] : List I) = none := by
  refine ⟨rfl, new_child_seq_nil s parents, rfl, ?_⟩
  cases hp : s.nodes[p]? with
  | none => simp [inject_child_seq, Option.bind_eq_bind, hp]
  | some pnode =>
      simp [inject_child_seq, Option.bind_eq_bind, hp, new_child_seq_nil]

/-- Claim C6, counterexample: a node with k>0 parents can enter the
ready queue twice.  Node 1 has the single parent 0; completing node 0
twice puts node 1 into the queue twice, although all its parents were
already Completed after the first call. -/
theorem multi_parent_enqueued_twice_counterexample :
    (do
      let r ← new_seq (empty : Sequencer Nat) [0, 1]
      let s₂ ← node_finished r.2 0
      let s₃ ← node_finished s₂ 0
      pure (s₃.queued_nodes.count 1, parentsOf s₃ 1, statusOf s₃ 0))
    = some (2, some [0], some NodeStatus.Completed) := by decide

/-- Claim C6, amended: (a) soundness holds in general — every key a
`node_finished` call appends to the ready queue is ready, i.e. all of
its parents are Completed in the resulting state, and the old queue is
preserved as a front segment; (b) in the two-parent scenario (roots X=0
and Y=1, child Z=2 with parents `[0,1]`, each parent completed exactly
once) the final state is identical for both completion orders, Z is
enqueued exactly once, and Z is not enqueued while only one parent is
Completed. -/
theorem child_enqueue_soundness_and_order_independence :
    (∀ (J : Type) (s s₁ : Sequencer J) (key : Nat),
      node_finished s key = some s₁ →
      s₁.queued_nodes.take s.queued_nodes.length = s.queued_nodes ∧
      (s₁.queued_nodes.drop s.queued_nodes.length).all (readyNowB s₁) = true) ∧
    ((do
        let rZ ← new_child_seq (new_node (new_node (empty : Sequencer Nat) 0).2 1).2 [0, 1] [2]
        let rD ← drain_queue rZ.2 (fun _ i => i)
        let sA ← node_finished rD.1 0
        node_finished sA 1)
      = (do
        let rZ ← new_child_seq (new_node (new_node (empty : Sequencer Nat) 0).2 1).2 [0, 1] [2]
        let rD ← drain_queue rZ.2 (fun _ i => i)
        let sA ← node_finished rD.1 1
        node_finished sA 0)) ∧
    ((do
        let rZ ← new_child_seq (new_node (new_node (empty : Sequencer Nat) 0).2 1).2 [0, 1] [2]
        let rD ← drain_queue rZ.2 (fun _ i => i)
        let sA ← node_finished rD.1 0
        let sB ← node_finished sA 1
        pure (sA.queued_nodes.count 2, sB.queued_nodes.count 2))
      = some (0, 1)) :=
  ⟨fun _ _ _ _ h => node_finished_spec h, by decide, by decide⟩

/-- Claim C6, witness for the general soundness part at a concrete
input: completing the root of `new_seq [0,1]` appends exactly the ready
child. -/
theorem child_enqueue_soundness_witness :
    ((⟨[0], [⟨0, [], [1], NodeStatus.Completed, 0⟩, ⟨1, [0], [], NodeStatus.Inactive, 1⟩],
        [0, 1], []⟩ : Sequencer Nat).queued_nodes.take 1 = [0]) ∧
    (((⟨[0], [⟨0, [], [1], NodeStatus.Completed, 0⟩, ⟨1, [0], [], NodeStatus.Inactive, 1⟩],
        [0, 1], []⟩ : Sequencer Nat).queued_nodes.drop 1).all
      (readyNowB (⟨[0], [⟨0, [], [1], NodeStatus.Completed, 0⟩,
        ⟨1, [0], [], NodeStatus.Inactive, 1⟩], [0, 1], []⟩ : Sequencer Nat)) = true) :=
  child_enqueue_soundness_and_order_independence.1 Nat
    ⟨[0], [⟨0, [], [1], NodeStatus.Inactive, 0⟩, ⟨1, [0], [], NodeStatus.Inactive, 1⟩],
      [0], []⟩
    ⟨[0], [⟨0, [], [1], NodeStatus.Completed, 0⟩, ⟨1, [0], [], NodeStatus.Inactive, 1⟩],
      [0, 1], []⟩
    0 (by decide)

/-- Claim C7, counterexample: the visitor is not applied exactly once
per node in the queue.  A reachable state (root completed twice) has
queue `[0, 1, 1]`; `drain_queue` passes node 1 to the visitor twice. -/
theorem drain_visits_queue_entry_twice_counterexample :
    (do
      let r ← new_seq (empty : Sequencer Nat) [0, 1]
      let s₂ ← node_finished r.2 0
      let s₃ ← node_finished s₂ 0
      let rD ← drain_queue s₃ (fun _ i => i)
      pure (s₃.queued_nodes, rD.2.count 1, rD.1.queued_nodes))
    = some ([0, 1, 1], 2, []) := by decide

/-- Claim C7, amended: over a queue of keys that name their own arena
slots, `drain_queue` applies the visitor once per queue entry in
insertion order (the returned log equals the starting queue), empties
the queue, sets every drained node's status to Active, and — when the
queued nodes are Inactive, pairwise distinct and not already active —
appends exactly them to the active set, in order. -/
theorem drain_queue_spec (s : Sequencer I) (f : Nat → I → I)
    (hk : ∀ k ∈ s.queued_nodes, keyOf s k = some k) :
    (drain_queue s f).map Prod.snd = some s.queued_nodes ∧
    (drain_queue s f).map (fun r => r.1.queued_nodes) = some [] ∧
    (∀ k ∈ s.queued_nodes,
      (drain_queue s f).bind (fun r => statusOf r.1 k) = some NodeStatus.Active) ∧
    ((∀ k ∈ s.queued_nodes, statusOf s k = some NodeStatus.Inactive) →
      s.queued_nodes.Nodup →
      (∀ k ∈ s.queued_nodes, k ∉ s.active_nodes) →
      (drain_queue s f).map (fun r => r.1.active_nodes) =
        some (s.active_nodes ++ s.queued_nodes)) := by
  have hkeys : ∀ k ∈ s.queued_nodes,
      keyOf ({ s with queued_nodes := [] } : Sequencer I) k = some k := hk
  obtain ⟨s₃, hd, hq3, _, hact3, _⟩ :=
    drainLoop_total f s.queued_nodes { s with queued_nodes := [] } hkeys
  have hdq : drain_queue s f = some (s₃, s.queued_nodes) := hd
  refine ⟨?_, ?_, ?_, ?_⟩
  · rw [hdq]; rfl
  · rw [hdq]
    simp only [Option.map_some', Option.some.injEq]
    exact hq3
  · intro k hkq
    rw [hdq]
    simp only [Option.some_bind]
    exact hact3 k hkq
  · intro hstat hnd hdisj
    exact drainLoop_active f s.queued_nodes { s with queued_nodes := [] }
      hkeys (fun k hkq => hstat k hkq) hnd (fun k hkq => hdisj k hkq)

/-- Claim C7, witness for the amended theorem at a concrete input. -/
theorem drain_queue_spec_witness :
    (drain_queue (⟨[0], [⟨0, [], [1], NodeStatus.Inactive, 0⟩,
        ⟨1, [0], [], NodeStatus.Inactive, 1⟩], [0], []⟩ : Sequencer Nat)
      (fun _ i => i)).map Prod.snd = some [0] :=
  (drain_queue_spec
    ⟨[0], [⟨0, [], [1], NodeStatus.Inactive, 0⟩, ⟨1, [0], [], NodeStatus.Inactive, 1⟩],
      [0], []⟩
    (fun _ i => i) (by decide)).1

/-- Claim C8, counterexample: with an extra root S=1 also parenting the
detached child C1=2, after `inject_child_seq(parent=0, [4,5])`
completing 0 and then 1 enqueues C1 while Q=5 is still Inactive — C1
does not wait for Q, because its parents list still reads `[0, 1]`. -/
theorem inject_detached_child_early_ready_counterexample :
    (do
      let r1 ← new_child_seq (new_node (new_node (empty : Sequencer Nat) 0).2 1).2 [0, 1] [2]
      let r2 ← new_child_seq r1.2 [0] [3]
      let rI ← inject_child_seq r2.2 0 [4, 5]
      let rD ← drain_queue rI.2 (fun _ i => i)
      let s₁ ← node_finished rD.1 0
      let s₂ ← node_finished s₁ 1
      pure (statusOf s₂ 5, s₂.queued_nodes.count 2, parentsOf s₂ 2))
    = some (some NodeStatus.Inactive, 1, some [0, 1]) := by decide

/-- Claim C8, amended (the spec scenario, where `parent` is the sole
parent of C1 and C2): after `inject_child_seq(parent=0, [P=3, Q=4])` on
a graph with children C1=1 and C2=2 of node 0, completing `parent`
enqueues exactly P, completing P enqueues exactly Q, and completing Q
enqueues exactly C1 and C2. -/
theorem inject_between_scenario :
    (do
      let r1 ← new_child_seq (new_node (empty : Sequencer Nat) 0).2 [0] [1]
      let r2 ← new_child_seq r1.2 [0] [2]
      let rI ← inject_child_seq r2.2 0 [3, 4]
      let rD ← drain_queue rI.2 (fun _ i => i)
      let s₁ ← node_finished rD.1 0
      let rD₂ ← drain_queue s₁ (fun _ i => i)
      let s₂ ← node_finished rD₂.1 3
      let rD₃ ← drain_queue s₂ (fun _ i => i)
      let s₃ ← node_finished rD₃.1 4
      pure (rI.1, s₁.queued_nodes, s₂.queued_nodes, s₃.queued_nodes))
    = some (4, [3], [4], [1, 2]) := by decide

/-- Claim C9: `inject_child_seq` rewires edges on the children side
only.  Every pre-existing node keeps its parents list verbatim, and —
as all pre-existing parent references are below the old arena length
while the chain's last key is fresh — no detached child's parents list
can name the chain's last node. -/
theorem inject_child_seq_preserves_parents (s : Sequencer I) (parent : Nat)
    (items : List I) (r : Nat × Sequencer I)
    (h : inject_child_seq s parent items = some r)
    (k : Nat) (hk : k < s.nodes.length) :
    parentsOf r.2 k = parentsOf s k ∧
    (∀ ps, parentsOf s k = some ps → (∀ q ∈ ps, q < s.nodes.length) → r.1 ∉ ps) := by
  obtain ⟨hge, hpar⟩ := inject_child_seq_frame h
  refine ⟨hpar k hk, ?_⟩
  intro ps hps hbound hmem
  have := hbound r.1 hmem
  omega

/-- Claim C9, witness at a concrete input: after injecting `[3,4]` under
parent 0, the detached child 1 still has parents `[0]`, which does not
name the chain's last node 4. -/
theorem inject_child_seq_preserves_parents_witness :
    parentsOf (⟨[0], [⟨0, [], [3], NodeStatus.Inactive, 0⟩,
        ⟨1, [0], [], NodeStatus.Inactive, 1⟩, ⟨2, [0], [], NodeStatus.Inactive, 2⟩,
        ⟨3, [0], [4], NodeStatus.Inactive, 3⟩, ⟨4, [3], [1, 2], NodeStatus.Inactive, 4⟩],
        [0], []⟩ : Sequencer Nat) 1
      = parentsOf (⟨[0], [⟨0, [], [1, 2], NodeStatus.Inactive, 0⟩,
        ⟨1, [0], [], NodeStatus.Inactive, 1⟩, ⟨2, [0], [], NodeStatus.Inactive, 2⟩],
        [0], []⟩ : Sequencer Nat) 1 ∧
    (4 : Nat) ∉ [0] :=
  ⟨(inject_child_seq_preserves_parents
      ⟨[0], [⟨0, [], [1, 2], NodeStatus.Inactive, 0⟩, ⟨1, [0], [], NodeStatus.Inactive, 1⟩,
        ⟨2, [0], [], NodeStatus.Inactive, 2⟩], [0], []⟩ 0 [3, 4]
      (4, ⟨[0], [⟨0, [], [3], NodeStatus.Inactive, 0⟩, ⟨1, [0], [], NodeStatus.Inactive, 1⟩,
        ⟨2, [0], [], NodeStatus.Inactive, 2⟩, ⟨3, [0], [4], NodeStatus.Inactive, 3⟩,
        ⟨4, [3], [1, 2], NodeStatus.Inactive, 4⟩], [0], []⟩)
      (by decide) 1 (by decide)).1,
   (inject_child_seq_preserves_parents
      ⟨[0], [⟨0, [], [1, 2], NodeStatus.Inactive, 0⟩, ⟨1, [0], [], NodeStatus.Inactive, 1⟩,
        ⟨2, [0], [], NodeStatus.Inactive, 2⟩], [0], []⟩ 0 [3, 4]
      (4, ⟨[0], [⟨0, [], [3], NodeStatus.Inactive, 0⟩, ⟨1, [0], [], NodeStatus.Inactive, 1⟩,
        ⟨2, [0], [], NodeStatus.Inactive, 2⟩, ⟨3, [0], [4], NodeStatus.Inactive, 3⟩,
        ⟨4, [3], [1, 2], NodeStatus.Inactive, 4⟩], [0], []⟩)
      (by decide) 1 (by decide)).2 [0] (by decide) (by decide)⟩

/-- Claim C10: completing a node that is still Inactive (never drained)
works: the status jumps straight to Completed, the active set is
untouched, the old queue is preserved, every newly queued key is ready,
and every child of the node whose parents are now all Completed is
enqueued. -/
theorem node_finished_on_inactive (s : Sequencer I) (key : Nat) (n : SeqNode I)
    (h1 : s.nodes[key]? = some n) (h2 : n.status = NodeStatus.Inactive)
    (s₁ : Sequencer I) (h3 : node_finished s key = some s₁) :
    s₁.active_nodes = s.active_nodes ∧
    statusOf s₁ key = some NodeStatus.Completed ∧
    s₁.queued_nodes.take s.queued_nodes.length = s.queued_nodes ∧
    (s₁.queued_nodes.drop s.queued_nodes.length).all (readyNowB s₁) = true ∧
    (∀ c ∈ n.children, readyNowB s₁ c = true → c ∈ s₁.queued_nodes) := by
  have hset := set_node_status_inactive_completed h1 h2
  have h3' : queue_ready_children
      (setNodeAt s key { n with status := NodeStatus.Completed }) key = some s₁ := by
    simp only [node_finished, Option.bind_eq_bind, hset, Option.some_bind] at h3
    exact h3
  obtain ⟨node₂, t, hk₂, hready, hs₁⟩ := queue_ready_children_some h3'
  have hkself : (setNodeAt s key { n with status := NodeStatus.Completed }).nodes[key]?
      = some { n with status := NodeStatus.Completed } := by
    show (s.nodes.set key _)[key]? = _
    exact List.getElem?_set_self (getIndexLt h1)
  have hnode₂ : node₂ = { n with status := NodeStatus.Completed } := by
    rw [hkself] at hk₂
    exact (Option.some.inj hk₂).symm
  have hnodes₁ : s₁.nodes = s.nodes.set key { n with status := NodeStatus.Completed } := by
    rw [hs₁]; rfl
  have hnodes₂ : s₁.nodes
      = (setNodeAt s key { n with status := NodeStatus.Completed }).nodes := by
    rw [hs₁]
  refine ⟨?_, statusOf_set_self (getIndexLt h1) hnodes₁,
    (node_finished_spec h3).1, (node_finished_spec h3).2, ?_⟩
  · rw [hs₁]; rfl
  · intro c hc hcready
    have hc₂ : c ∈ node₂.children := by rw [hnode₂]; exact hc
    have hcready₂ :
        readyNowB (setNodeAt s key { n with status := NodeStatus.Completed }) c = true := by
      rw [← readyNowB_congr hnodes₂ c]
      exact hcready
    have hmem := readyChildren_complete hready c hc₂ hcready₂
    rw [hs₁]
    exact List.mem_append_right _ hmem

/-- Claim C10, witness at a concrete input: completing the never-drained
root of `new_seq [0,1]` leaves the active set empty and marks it
Completed. -/
theorem node_finished_on_inactive_witness :
    (⟨[0], [⟨0, [], [1], NodeStatus.Completed, 0⟩, ⟨1, [0], [], NodeStatus.Inactive, 1⟩],
        [0, 1], []⟩ : Sequencer Nat).active_nodes
      = (⟨[0], [⟨0, [], [1], NodeStatus.Inactive, 0⟩, ⟨1, [0], [], NodeStatus.Inactive, 1⟩],
        [0], []⟩ : Sequencer Nat).active_nodes ∧
    statusOf (⟨[0], [⟨0, [], [1], NodeStatus.Completed, 0⟩,
        ⟨1, [0], [], NodeStatus.Inactive, 1⟩], [0, 1], []⟩ : Sequencer Nat) 0
      = some NodeStatus.Completed :=
  ⟨(node_finished_on_inactive
      ⟨[0], [⟨0, [], [1], NodeStatus.Inactive, 0⟩, ⟨1, [0], [], NodeStatus.Inactive, 1⟩],
        [0], []⟩ 0 ⟨0, [], [1], NodeStatus.Inactive, 0⟩ (by decide) rfl
      ⟨[0], [⟨0, [], [1], NodeStatus.Completed, 0⟩, ⟨1, [0], [], NodeStatus.Inactive, 1⟩],
        [0, 1], []⟩ (by decide)).1,
   (node_finished_on_inactive
      ⟨[0], [⟨0, [], [1], NodeStatus.Inactive, 0⟩, ⟨1, [0], [], NodeStatus.Inactive, 1⟩],
        [0], []⟩ 0 ⟨0, [], [1], NodeStatus.Inactive, 0⟩ (by decide) rfl
      ⟨[0], [⟨0, [], [1], NodeStatus.Completed, 0⟩, ⟨1, [0], [], NodeStatus.Inactive, 1⟩],
        [0, 1], []⟩ (by decide)).2.1⟩

end Sequencer
